import Mathlib

/-!
Shallow embedding of the BusTub copy-on-write trie
(`src/primer/trie.cpp`) and verification of its specified properties.

The C++ `Trie` holds a `shared_ptr<const TrieNode> root_` which may be
null (the empty trie).  A `TrieNode` has a `std::map<char, shared_ptr<const
TrieNode>> children_` and, in the derived class `TrieNodeWithValue<T>`, a
value of type `T`; `is_value_node_` discriminates the two.  We model the
children map as an association list (a `std::map` holds at most one entry
per key), and a value as a type tag together with a value of the denoted
type, mirroring the `dynamic_cast` type test performed by `Trie::Get`.

`Trie::Remove` dereferences `root_` without a null check, so on the empty
trie it faults; we model a fault as `none` in an `Option` result.
-/

/-- Type tags standing for the template parameter `T` of `Get`/`Put`
(the explicit instantiations in the source use `uint32_t`, `uint64_t`,
`std::string`, ...). -/
inductive TTag : Type where
  | u32
  | u64
  | str
deriving DecidableEq, Repr

/-- Denotation of each type tag. -/
def TDen : TTag → Type
  | .u32 => Nat
  | .u64 => Nat
  | .str => String

/-- A stored value: a type tag together with a value of the denoted type
(models the payload of `TrieNodeWithValue<T>`). -/
def TVal : Type := Sigma TDen

/-- Lookup in a children map: `children_.find(ch)`. -/
def findA {α : Type} : List (Char × α) → Char → Option α
  | [], _ => none
  | (c, x) :: rest, ch => if c = ch then some x else findA rest ch

/-- Insert-or-assign: `children_[ch] = x`. -/
def insertA {α : Type} : List (Char × α) → Char → α → List (Char × α)
  | [], ch, x => [(ch, x)]
  | (c, y) :: rest, ch, x =>
    if c = ch then (ch, x) :: rest else (c, y) :: insertA rest ch x

/-- Erase a key: `children_.erase(ch)`.  A `std::map` holds at most one
entry per key, so removing every matching entry is the same operation on
representable states. -/
def eraseA {α : Type} : List (Char × α) → Char → List (Char × α)
  | [], _ => []
  | (c, y) :: rest, ch =>
    if c = ch then eraseA rest ch else (c, y) :: eraseA rest ch

/-- A trie node: children map plus optional typed value.  `value = none`
models a plain `TrieNode` (`is_value_node_ == false`); `value = some v`
models a `TrieNodeWithValue` carrying `v`.  The class declarations live in
`primer/trie.h`, outside the provided sources; the attribute layout and
the `Clone` behavior (copy the children map and the value) follow the
spec's data model and match every use in `trie.cpp`. -/
inductive TrieNode : Type where
  | mk (children : List (Char × TrieNode)) (value : Option TVal)

/-- The children map of a node. -/
def TrieNode.children : TrieNode → List (Char × TrieNode)
  | .mk cs _ => cs

/-- The optional value of a node. -/
def TrieNode.value : TrieNode → Option TVal
  | .mk _ v => v

/-- A trie: a root node or none (`root_` may be a null pointer). -/
structure Trie : Type where
  root : Option TrieNode

/-- Walk from a node consuming one key character per edge: the traversal
loop of `Trie::Get`.  Missing edge at any step yields `none`. -/
def getNode : TrieNode → List Char → Option TrieNode
  | n, [] => some n
  | n, ch :: rest =>
    match findA n.children ch with
    | none => none
    | some c => getNode c rest

/-- `Trie::Get<T>`: traverse to the node of `key`; absent node, valueless
node, or a value whose type tag differs from the requested tag `τ` all
yield `none`; otherwise the value is returned (the tag test models the
`dynamic_cast` to `TrieNodeWithValue<T>`). -/
def Trie.Get (t : Trie) (key : List Char) (τ : TTag) : Option (TDen τ) :=
  match t.root with
  | none => none
  | some r =>
    match getNode r key with
    | none => none
    | some n =>
      match n.value with
      | none => none
      | some v => if h : v.fst = τ then some (h ▸ v.snd) else none

/-- The loop of `Trie::Put` on a freshly cloned node `n`, processing the
remaining key `ch :: rest`.  For each character before the last, the
existing child is shallow-cloned (or a fresh empty node created) and the
loop descends into it; at the last character a value node is created,
inheriting the children of any node already at that position. -/
def putLoop (n : TrieNode) (ch : Char) (rest : List Char) (v : TVal) : TrieNode :=
  match rest with
  | [] =>
    let vnode : TrieNode :=
      match findA n.children ch with
      | none => .mk [] (some v)
      | some ex => .mk ex.children (some v)
    .mk (insertA n.children ch vnode) n.value
  | ch2 :: rest2 =>
    let child : TrieNode :=
      match findA n.children ch with
      | none => .mk [] none
      | some ex => .mk ex.children ex.value
    .mk (insertA n.children ch (putLoop child ch2 rest2 v)) n.value

/-- `Trie::Put<T>`: empty key makes the new root a value node reusing the
old root's children; otherwise the old root is cloned (or a fresh node
created for an empty trie) and `putLoop` rebuilds the path to `key`. -/
def Trie.Put (t : Trie) (key : List Char) (v : TVal) : Trie :=
  match t.root, key with
  | some r, [] => ⟨some (.mk r.children (some v))⟩
  | some r, ch :: rest => ⟨some (putLoop (.mk r.children r.value) ch rest v)⟩
  | none, [] => ⟨some (.mk [] (some v))⟩
  | none, ch :: rest => ⟨some (putLoop (.mk [] none) ch rest v)⟩

/-- The recursive content of `Trie::Remove` from a node: outer `none`
means the early `return *this` (missing edge, or terminal without value);
`some none` means the subtree is pruned away; `some (some m)` is the
rebuilt subtree.  The parent step clones the stack node, reattaches the
updated child or erases the edge, and collapses the clone when it is left
with no children and no value (`children_.size() <= 1` tested before the
erase equals zero children after it). -/
def removeGo (n : TrieNode) (key : List Char) : Option (Option TrieNode) :=
  match key with
  | [] =>
    match n.value with
    | none => none
    | some _ =>
      if n.children.isEmpty then some none
      else some (some (.mk n.children none))
  | ch :: rest =>
    match findA n.children ch with
    | none => none
    | some child =>
      match removeGo child rest with
      | none => none
      | some newChild =>
        match newChild with
        | some nc => some (some (.mk (insertA n.children ch nc) n.value))
        | none =>
          if n.children.length ≤ 1 && n.value.isNone then some none
          else some (some (.mk (eraseA n.children ch) n.value))

/-- `Trie::Remove`: the source dereferences `root_` with no null check,
so the empty trie faults (modelled as `none`); otherwise a missing edge
or valueless terminal returns the trie unchanged, and a found value node
is removed with upward pruning. -/
def Trie.Remove (t : Trie) (key : List Char) : Option Trie :=
  match t.root with
  | none => none
  | some r =>
    match removeGo r key with
    | none => some t
    | some newRoot => some ⟨newRoot⟩

/-- Traversal composed with the value field: the observable content of a
subtree at a key, before the type-tag filter. -/
def lookV (n : TrieNode) (key : List Char) : Option TVal :=
  match getNode n key with
  | none => none
  | some m => m.value

/-- The type-tag filter applied by `Trie::Get` to a found value. -/
def tagF (o : Option TVal) (τ : TTag) : Option (TDen τ) :=
  match o with
  | none => none
  | some v => if h : v.fst = τ then some (h ▸ v.snd) else none

/-- Whether the trie stores a value (of any type) at `key`. -/
def Trie.hasVal (t : Trie) (key : List Char) : Bool :=
  match t.root with
  | none => false
  | some r => (lookV r key).isSome

/-- The type tag of the value stored at `key`, when there is one. -/
def Trie.storedTag (t : Trie) (key : List Char) : Option TTag :=
  match t.root with
  | none => none
  | some r => (lookV r key).map Sigma.fst

mutual
/-- No reachable node lacks both a value and children (invariant I4's
notion of a dead node). -/
def noDead : TrieNode → Bool
  | .mk cs v => (v.isSome || !cs.isEmpty) && noDeadL cs

/-- List form of `noDead` over a children map. -/
def noDeadL : List (Char × TrieNode) → Bool
  | [] => true
  | (_, n) :: rest => noDead n && noDeadL rest
end

/-- Whether a children map already has an entry for `ch`. -/
def containsKeyA {α : Type} (l : List (Char × α)) (ch : Char) : Bool :=
  (findA l ch).isSome

/-- The keys of an association list are pairwise distinct (always true of
a `std::map`). -/
def nodupCh {α : Type} : List (Char × α) → Bool
  | [] => true
  | (c, _) :: rest => !containsKeyA rest c && nodupCh rest

mutual
/-- Every reachable children map has pairwise distinct edge labels
(always true of `std::map` states). -/
def nodupE : TrieNode → Bool
  | .mk cs _ => nodupCh cs && nodupEL cs

/-- List form of `nodupE` over a children map. -/
def nodupEL : List (Char × TrieNode) → Bool
  | [] => true
  | (_, n) :: rest => nodupE n && nodupEL rest
end

/-- Invariant I4 at the trie level: an empty trie is fine, otherwise no
dead node is reachable from the root. -/
def Trie.noDeadT (t : Trie) : Bool :=
  match t.root with
  | none => true
  | some r => noDead r

/-- Distinct edge labels at the trie level. -/
def Trie.nodupT (t : Trie) : Bool :=
  match t.root with
  | none => true
  | some r => nodupE r

/-- The pre-tag-filter content of a trie at a key. -/
def lookT (t : Trie) (key : List Char) : Option TVal :=
  match t.root with
  | none => none
  | some r => lookV r key

/-- Lookup through an optional node: an absent (pruned) node holds
nothing at any key. -/
def lookVO (o : Option TrieNode) (key : List Char) : Option TVal :=
  match o with
  | none => none
  | some m => lookV m key

/-- Well-formedness of an optional (possibly pruned) node: distinct edge
labels and no dead node reachable. -/
def wfO (o : Option TrieNode) : Bool :=
  match o with
  | none => true
  | some m => nodupE m && noDead m

/-!
Heap model of `Trie::Put`.

The functional model above captures the observable maps; claim I1/C3 is
about pointer-level non-mutation, so `Put` is also embedded against an
explicit heap: addresses are indices into a list of node records, a
`shared_ptr` is an address, `make_shared` is allocation at the end of the
heap, and `node->children_[ch] = p` is an in-place update of the record
at the node's address.  `Trie::Put` allocates its clones and writes only
through addresses of nodes allocated during the call, which the frame
theorem below makes exact.
-/

/-- A heap-resident trie node: children map to child addresses. -/
structure NodeH : Type where
  children : List (Char × Nat)
  value : Option TVal

/-- The loop of `Trie::Put` on the heap: `a` is the address of the
freshly cloned current node, `ch :: rest` the remaining key.  Each step
allocates the clone (or fresh node) of the next child at the end of the
heap and redirects edge `ch` of the node at `a` to it. -/
def putHGo (h : List NodeH) (a : Nat) (ch : Char) (rest : List Char) (v : TVal) :
    List NodeH :=
  let nd := h.getD a ⟨[], none⟩
  match rest with
  | [] =>
    let vnode : NodeH :=
      match findA nd.children ch with
      | none => ⟨[], some v⟩
      | some cAddr => ⟨(h.getD cAddr ⟨[], none⟩).children, some v⟩
    (h ++ [vnode]).set a ⟨insertA nd.children ch h.length, nd.value⟩
  | ch2 :: rest2 =>
    let cnode : NodeH :=
      match findA nd.children ch with
      | none => ⟨[], none⟩
      | some cAddr =>
        let cn := h.getD cAddr ⟨[], none⟩
        ⟨cn.children, cn.value⟩
    let h2 := (h ++ [cnode]).set a ⟨insertA nd.children ch h.length, nd.value⟩
    putHGo h2 h.length ch2 rest2 v

/-- `Trie::Put` on the heap: returns the new heap and the new root
address.  Empty key allocates a value node reusing the old root's
children; otherwise the root clone is allocated and `putHGo` runs. -/
def putH (h : List NodeH) (root : Option Nat) (key : List Char) (v : TVal) :
    List NodeH × Option Nat :=
  match root, key with
  | some r, [] =>
    let rn := h.getD r ⟨[], none⟩
    (h ++ [⟨rn.children, some v⟩], some h.length)
  | some r, ch :: rest =>
    let rn := h.getD r ⟨[], none⟩
    (putHGo (h ++ [⟨rn.children, rn.value⟩]) h.length ch rest v, some h.length)
  | none, [] => (h ++ [⟨[], some v⟩], some h.length)
  | none, ch :: rest =>
    (putHGo (h ++ [⟨[], none⟩]) h.length ch rest v, some h.length)

/-- `Trie::Get` on the heap, from the node at address `a`. -/
def getHGo (h : List NodeH) (a : Nat) (key : List Char) (τ : TTag) :
    Option (TDen τ) :=
  match key with
  | [] =>
    match h[a]? with
    | none => none
    | some nd => tagF nd.value τ
  | ch :: rest =>
    match h[a]? with
    | none => none
    | some nd =>
      match findA nd.children ch with
      | none => none
      | some c => getHGo h c rest τ

/-- `Trie::Get` on the heap: a null root yields `none`. -/
def getH (h : List NodeH) (root : Option Nat) (key : List Char) (τ : TTag) :
    Option (TDen τ) :=
  match root with
  | none => none
  | some a => getHGo h a key τ

/-- Every child address of the record stays below `L`. -/
def closedNode (nd : NodeH) (L : Nat) : Bool :=
  nd.children.all fun p => p.2 < L

/-- Every record's child addresses stay inside the heap. -/
def closedHeap (h : List NodeH) : Bool :=
  h.all fun nd => closedNode nd h.length

/-- The root address, when present, is inside the heap. -/
def rootOkB (root : Option Nat) (L : Nat) : Bool :=
  match root with
  | none => true
  | some r => r < L

/-- The children of the root node; empty for the empty trie. -/
def Trie.rootChildren (t : Trie) : List (Char × TrieNode) :=
  match t.root with
  | none => []
  | some r => r.children

@[simp] theorem TrieNode.children_mk (cs : List (Char × TrieNode)) (v : Option TVal) :
    (TrieNode.mk cs v).children = cs := rfl

@[simp] theorem TrieNode.value_mk (cs : List (Char × TrieNode)) (v : Option TVal) :
    (TrieNode.mk cs v).value = v := rfl

theorem TrieNode.eta (n : TrieNode) : TrieNode.mk n.children n.value = n := by
  cases n
  rfl

/-! Association-list lemmas. -/

theorem findA_insertA_self {α : Type} (l : List (Char × α)) (ch : Char) (x : α) :
    findA (insertA l ch x) ch = some x := by
  induction l with
  | nil => simp [insertA, findA]
  | cons p rest ih =>
    obtain ⟨c, y⟩ := p
    by_cases h : c = ch
    · simp [insertA, findA, h]
    · simp [insertA, findA, h, ih]

theorem findA_insertA_ne {α : Type} (l : List (Char × α)) (ch c : Char) (x : α)
    (h : c ≠ ch) : findA (insertA l ch x) c = findA l c := by
  induction l with
  | nil => simp [insertA, findA, Ne.symm h]
  | cons p rest ih =>
    obtain ⟨c0, y⟩ := p
    by_cases h0 : c0 = ch
    · subst h0
      simp [insertA, findA, Ne.symm h]
    · simp [insertA, findA, h0, ih]

theorem findA_eraseA_self {α : Type} (l : List (Char × α)) (ch : Char) :
    findA (eraseA l ch) ch = none := by
  induction l with
  | nil => simp [eraseA, findA]
  | cons p rest ih =>
    obtain ⟨c, y⟩ := p
    by_cases h : c = ch
    · simp [eraseA, h, ih]
    · simp [eraseA, findA, h, ih]

theorem findA_eraseA_ne {α : Type} (l : List (Char × α)) (ch c : Char)
    (h : c ≠ ch) : findA (eraseA l ch) c = findA l c := by
  induction l with
  | nil => simp [eraseA]
  | cons p rest ih =>
    obtain ⟨c0, y⟩ := p
    by_cases h0 : c0 = ch
    · subst h0
      have : c0 ≠ c := fun hc => h (hc ▸ rfl)
      simp [eraseA, findA, this, ih]
    · simp [eraseA, findA, h0, ih]

theorem findA_mem {α : Type} (l : List (Char × α)) (ch : Char) (x : α)
    (h : findA l ch = some x) : (ch, x) ∈ l := by
  induction l with
  | nil => simp [findA] at h
  | cons p rest ih =>
    obtain ⟨c, y⟩ := p
    by_cases h0 : c = ch
    · subst h0
      simp [findA] at h
      subst h
      exact List.mem_cons_self _ _
    · simp [findA, h0] at h
      exact List.mem_cons_of_mem _ (ih h)

theorem mem_insertA {α : Type} (l : List (Char × α)) (ch : Char) (x : α)
    (p : Char × α) (h : p ∈ insertA l ch x) : p ∈ l ∨ p = (ch, x) := by
  induction l with
  | nil =>
    simp [insertA] at h
    exact Or.inr h
  | cons q rest ih =>
    obtain ⟨c, y⟩ := q
    by_cases h0 : c = ch
    · simp [insertA, h0] at h
      rcases h with h | h
      · exact Or.inr h
      · exact Or.inl (List.mem_cons_of_mem _ h)
    · simp [insertA, h0] at h
      rcases h with h | h
      · exact Or.inl (by simp [h])
      · rcases ih h with h1 | h1
        · exact Or.inl (List.mem_cons_of_mem _ h1)
        · exact Or.inr h1

theorem mem_eraseA {α : Type} (l : List (Char × α)) (ch : Char)
    (p : Char × α) (h : p ∈ eraseA l ch) : p ∈ l := by
  induction l with
  | nil => simp [eraseA] at h
  | cons q rest ih =>
    obtain ⟨c, y⟩ := q
    by_cases h0 : c = ch
    · simp [eraseA, h0] at h
      exact List.mem_cons_of_mem _ (ih h)
    · simp [eraseA, h0] at h
      rcases h with h | h
      · simp [h]
      · exact List.mem_cons_of_mem _ (ih h)

theorem insertA_ne_nil {α : Type} (l : List (Char × α)) (ch : Char) (x : α) :
    insertA l ch x ≠ [] := by
  cases l with
  | nil => simp [insertA]
  | cons p rest =>
    obtain ⟨c, y⟩ := p
    by_cases h : c = ch <;> simp [insertA, h]

theorem findA_singleton_ne {α : Type} (l : List (Char × α)) (ch c : Char) (x : α)
    (hfind : findA l ch = some x) (hlen : l.length ≤ 1) (h : c ≠ ch) :
    findA l c = none := by
  cases l with
  | nil => rfl
  | cons p rest =>
    obtain ⟨c0, y⟩ := p
    cases rest with
    | nil =>
      by_cases h0 : c0 = ch
      · subst h0
        simp [findA, fun hc : c0 = c => h (hc ▸ rfl)]
        intro hc
        exact absurd hc.symm h
      · simp [findA, h0] at hfind
    | cons q rest2 => simp at hlen

/-! Lookup characterization lemmas. -/

theorem lookV_nil (n : TrieNode) : lookV n [] = n.value := rfl

theorem lookV_cons (n : TrieNode) (ch : Char) (rest : List Char) :
    lookV n (ch :: rest) =
      match findA n.children ch with
      | none => none
      | some c => lookV c rest := by
  cases h : findA n.children ch <;> simp [lookV, getNode, h]

theorem lookV_empty_node (key : List Char) : lookV (TrieNode.mk [] none) key = none := by
  cases key <;> simp [lookV_nil, lookV_cons, findA]

theorem Get_eq_tagF (t : Trie) (key : List Char) (τ : TTag) :
    t.Get key τ = tagF (lookT t key) τ := by
  obtain ⟨ro⟩ := t
  cases ro with
  | none => rfl
  | some r =>
    cases hg : getNode r key with
    | none => simp [Trie.Get, lookT, lookV, tagF, hg]
    | some n =>
      cases hv : n.value with
      | none => simp [Trie.Get, lookT, lookV, tagF, hg, hv]
      | some v => simp [Trie.Get, lookT, lookV, tagF, hg, hv]

/-! Put lemmas. -/

theorem lookV_putLoop_self : ∀ (rest : List Char) (n : TrieNode) (ch : Char) (v : TVal),
    lookV (putLoop n ch rest v) (ch :: rest) = some v := by
  intro rest
  induction rest with
  | nil =>
    intro n ch v
    cases hf : findA n.children ch <;>
      simp [putLoop, lookV_cons, findA_insertA_self, hf, lookV_nil]
  | cons ch2 rest2 ih =>
    intro n ch v
    cases hf : findA n.children ch <;>
      simp [putLoop, lookV_cons, findA_insertA_self, hf, ih]

theorem lookV_putLoop_frame : ∀ (rest : List Char) (n : TrieNode) (ch : Char) (v : TVal)
    (key : List Char), key ≠ ch :: rest →
    lookV (putLoop n ch rest v) key = lookV n key := by
  intro rest
  induction rest with
  | nil =>
    intro n ch v key hk
    cases key with
    | nil => simp [putLoop, lookV_nil]
    | cons c r =>
      by_cases hc : c = ch
      · subst hc
        have hr : r ≠ [] := fun h => hk (by simp [h])
        cases r with
        | nil => exact absurd rfl hr
        | cons d rs =>
          cases hf : findA n.children c with
          | none =>
            simp [putLoop, hf, lookV_cons, findA_insertA_self, findA]
          | some ex =>
            simp [putLoop, hf, lookV_cons, findA_insertA_self]
      · cases hf : findA n.children c <;>
          simp [putLoop, lookV_cons, findA_insertA_ne _ _ _ _ hc, hf]
  | cons ch2 rest2 ih =>
    intro n ch v key hk
    cases key with
    | nil => simp [putLoop, lookV_nil]
    | cons c r =>
      by_cases hc : c = ch
      · subst hc
        have hr : r ≠ ch2 :: rest2 := fun h => hk (by simp [h])
        cases hf : findA n.children c with
        | none =>
          simp [putLoop, hf, lookV_cons, findA_insertA_self, ih _ _ _ _ hr,
            lookV_empty_node]
        | some ex =>
          simp [putLoop, hf, lookV_cons, findA_insertA_self, ih _ _ _ _ hr,
            TrieNode.eta]
      · cases hf : findA n.children c <;>
          simp [putLoop, lookV_cons, findA_insertA_ne _ _ _ _ hc, hf]

/-! Remove lemmas. -/

theorem removeGo_isSome : ∀ (key : List Char) (n : TrieNode),
    (lookV n key).isSome = true → (removeGo n key).isSome = true := by
  intro key
  induction key with
  | nil =>
    intro n h
    rw [lookV_nil] at h
    cases hv : n.value with
    | none => rw [hv] at h; simp at h
    | some v =>
      cases hie : n.children.isEmpty <;> simp [removeGo, hv, hie]
  | cons ch rest ih =>
    intro n h
    rw [lookV_cons] at h
    cases hf : findA n.children ch with
    | none => rw [hf] at h; simp at h
    | some child =>
      rw [hf] at h
      have h2 := ih child h
      cases hrg : removeGo child rest with
      | none => rw [hrg] at h2; simp at h2
      | some ncr =>
        cases ncr with
        | some nc => simp [removeGo, hf, hrg]
        | none =>
          cases hcond : (n.children.length ≤ 1 && n.value.isNone) <;>
            simp [removeGo, hf, hrg, hcond]

theorem removeGo_frame : ∀ (key : List Char) (n : TrieNode) (res : Option TrieNode),
    removeGo n key = some res → ∀ key', key' ≠ key →
    lookVO res key' = lookV n key' := by
  intro key
  induction key with
  | nil =>
    intro n res hrm key' hk
    cases hv : n.value with
    | none => simp [removeGo, hv] at hrm
    | some v =>
      obtain ⟨cs, w⟩ := n
      simp at hv
      subst hv
      cases key' with
      | nil => exact absurd rfl hk
      | cons c r =>
        cases cs with
        | nil =>
          simp [removeGo] at hrm
          subst hrm
          simp [lookVO, lookV_cons, findA]
        | cons p cs2 =>
          simp [removeGo] at hrm
          subst hrm
          simp [lookVO, lookV_cons]
  | cons ch rest ih =>
    intro n res hrm key' hk
    cases hf : findA n.children ch with
    | none => simp [removeGo, hf] at hrm
    | some child =>
      cases hrg : removeGo child rest with
      | none => simp [removeGo, hf, hrg] at hrm
      | some ncr =>
        have ihc := ih child ncr hrg
        cases ncr with
        | some nc =>
          simp [removeGo, hf, hrg] at hrm
          subst hrm
          cases key' with
          | nil => simp [lookVO, lookV_nil]
          | cons c r =>
            by_cases hc : c = ch
            · subst hc
              have hr : r ≠ rest := fun h => hk (by simp [h])
              have := ihc r hr
              simp [lookVO] at this
              simp [lookVO, lookV_cons, findA_insertA_self, hf, this]
            · simp [lookVO, lookV_cons, findA_insertA_ne _ _ _ _ hc]
        | none =>
          cases hcond : (n.children.length ≤ 1 && n.value.isNone) with
          | true =>
            simp [removeGo, hf, hrg, hcond] at hrm
            subst hrm
            simp at hcond
            obtain ⟨hlen, hnone⟩ := hcond
            cases key' with
            | nil =>
              simp [lookVO, lookV_nil, hnone]
            | cons c r =>
              by_cases hc : c = ch
              · subst hc
                have hr : r ≠ rest := fun h => hk (by simp [h])
                have := ihc r hr
                simp [lookVO] at this
                simp [lookVO, lookV_cons, hf, this]
              · simp [lookVO, lookV_cons,
                  findA_singleton_ne _ _ _ _ hf hlen hc]
          | false =>
            simp [removeGo, hf, hrg, hcond] at hrm
            subst hrm
            cases key' with
            | nil => simp [lookVO, lookV_nil]
            | cons c r =>
              by_cases hc : c = ch
              · subst hc
                have hr : r ≠ rest := fun h => hk (by simp [h])
                have := ihc r hr
                simp [lookVO] at this
                simp [lookVO, lookV_cons, findA_eraseA_self, hf, this]
              · simp [lookVO, lookV_cons, findA_eraseA_ne _ _ _ hc]

/-! Well-formedness lemmas for pruning. -/

theorem noDeadL_forall : ∀ (l : List (Char × TrieNode)),
    noDeadL l = true ↔ ∀ p ∈ l, noDead p.2 = true := by
  intro l
  induction l with
  | nil => simp [noDeadL]
  | cons p rest ih =>
    obtain ⟨c, m⟩ := p
    simp [noDeadL, ih]

theorem nodupEL_forall : ∀ (l : List (Char × TrieNode)),
    nodupEL l = true ↔ ∀ p ∈ l, nodupE p.2 = true := by
  intro l
  induction l with
  | nil => simp [nodupEL]
  | cons p rest ih =>
    obtain ⟨c, m⟩ := p
    simp [nodupEL, ih]

theorem nodupCh_insertA {α : Type} : ∀ (l : List (Char × α)) (ch : Char) (x : α),
    nodupCh l = true → nodupCh (insertA l ch x) = true := by
  intro l
  induction l with
  | nil => intro ch x _; simp [insertA, nodupCh, containsKeyA, findA]
  | cons p rest ih =>
    intro ch x h
    obtain ⟨c, y⟩ := p
    simp [nodupCh] at h
    obtain ⟨h1, h2⟩ := h
    by_cases h0 : c = ch
    · subst h0
      simp [insertA, nodupCh, h1, h2]
    · have h1f : findA rest c = none := by
        cases hr : findA rest c with
        | none => rfl
        | some z => simp [containsKeyA, hr] at h1
      simp [insertA, h0, nodupCh, ih _ _ h2, containsKeyA,
        findA_insertA_ne rest ch c x h0, h1f]

theorem nodupCh_eraseA {α : Type} : ∀ (l : List (Char × α)) (ch : Char),
    nodupCh l = true → nodupCh (eraseA l ch) = true := by
  intro l
  induction l with
  | nil => intro ch _; simp [eraseA, nodupCh]
  | cons p rest ih =>
    intro ch h
    obtain ⟨c, y⟩ := p
    simp [nodupCh] at h
    obtain ⟨h1, h2⟩ := h
    by_cases h0 : c = ch
    · subst h0
      simp [eraseA, ih _ h2]
    · have h1f : findA rest c = none := by
        cases hr : findA rest c with
        | none => rfl
        | some z => simp [containsKeyA, hr] at h1
      simp [eraseA, h0, nodupCh, ih _ h2, containsKeyA,
        findA_eraseA_ne rest ch c h0, h1f]

theorem eraseA_of_not_found {α : Type} : ∀ (l : List (Char × α)) (ch : Char),
    findA l ch = none → eraseA l ch = l := by
  intro l
  induction l with
  | nil => intro ch _; rfl
  | cons p rest ih =>
    intro ch h
    obtain ⟨c, y⟩ := p
    by_cases h0 : c = ch
    · simp [findA, h0] at h
    · simp [findA, h0] at h
      simp [eraseA, h0, ih _ h]

theorem eraseA_length_nodup {α : Type} : ∀ (l : List (Char × α)) (ch : Char) (x : α),
    nodupCh l = true → findA l ch = some x →
    (eraseA l ch).length + 1 = l.length := by
  intro l
  induction l with
  | nil => intro ch x _ h; simp [findA] at h
  | cons p rest ih =>
    intro ch x hnd hfind
    obtain ⟨c, y⟩ := p
    simp [nodupCh] at hnd
    obtain ⟨h1, h2⟩ := hnd
    by_cases h0 : c = ch
    · subst h0
      have : findA rest c = none := by
        cases hr : findA rest c with
        | none => rfl
        | some z => simp [containsKeyA, hr] at h1
      simp [eraseA, eraseA_of_not_found _ _ this]
    · simp [findA, h0] at hfind
      simp [eraseA, h0, ih _ _ h2 hfind]

theorem removeGo_wf : ∀ (key : List Char) (n : TrieNode) (res : Option TrieNode),
    removeGo n key = some res → nodupE n = true → noDead n = true →
    wfO res = true := by
  intro key
  induction key with
  | nil =>
    intro n res hrm hnd hdead
    obtain ⟨cs, val⟩ := n
    cases hv : val with
    | none => subst hv; simp [removeGo] at hrm
    | some w =>
      subst hv
      cases cs with
      | nil =>
        simp [removeGo] at hrm
        subst hrm
        rfl
      | cons p cs2 =>
        simp [removeGo] at hrm
        subst hrm
        simp [nodupE, noDead] at hnd hdead
        simp [wfO, nodupE, noDead, hnd, hdead]
  | cons ch rest ih =>
    intro n res hrm hnd hdead
    obtain ⟨cs, val⟩ := n
    simp [removeGo] at hrm
    cases hf : findA cs ch with
    | none => rw [hf] at hrm; simp at hrm
    | some child =>
      rw [hf] at hrm
      simp only [] at hrm
      cases hrg : removeGo child rest with
      | none => rw [hrg] at hrm; simp at hrm
      | some ncr =>
        rw [hrg] at hrm
        simp only [] at hrm
        simp [nodupE] at hnd
        simp [noDead] at hdead
        obtain ⟨hndc, hndl⟩ := hnd
        obtain ⟨hmem0, hdl⟩ := hdead
        have hchild_mem : (ch, child) ∈ cs := findA_mem _ _ _ hf
        have hchild_nodup : nodupE child = true :=
          (nodupEL_forall cs).mp hndl _ hchild_mem
        have hchild_noDead : noDead child = true :=
          (noDeadL_forall cs).mp hdl _ hchild_mem
        have hwf := ih child ncr hrg hchild_nodup hchild_noDead
        cases ncr with
        | some nc =>
          simp at hrm
          subst hrm
          simp [wfO] at hwf
          obtain ⟨hnc_nodup, hnc_noDead⟩ := hwf
          have h_ins_nodup : nodupCh (insertA cs ch nc) = true :=
            nodupCh_insertA _ _ _ hndc
          have h_ins_l : ∀ p ∈ insertA cs ch nc,
              nodupE p.2 = true ∧ noDead p.2 = true := by
            intro p hp
            rcases mem_insertA _ _ _ _ hp with hp1 | hp1
            · exact ⟨(nodupEL_forall cs).mp hndl _ hp1,
                (noDeadL_forall cs).mp hdl _ hp1⟩
            · subst hp1
              exact ⟨hnc_nodup, hnc_noDead⟩
          have h1 : nodupEL (insertA cs ch nc) = true :=
            (nodupEL_forall _).mpr fun p hp => (h_ins_l p hp).1
          have h2 : noDeadL (insertA cs ch nc) = true :=
            (noDeadL_forall _).mpr fun p hp => (h_ins_l p hp).2
          have h4 : (insertA cs ch nc).isEmpty = false := by
            cases hie : insertA cs ch nc with
            | nil => exact absurd hie (insertA_ne_nil _ _ _)
            | cons q l2 => rfl
          simp [wfO, nodupE, noDead, h_ins_nodup, h1, h2, h4]
        | none =>
          cases hcond : (decide (cs.length ≤ 1) && val.isNone) with
          | true =>
            rw [hcond] at hrm
            simp at hrm
            subst hrm
            rfl
          | false =>
            rw [hcond] at hrm
            simp at hrm
            subst hrm
            have h_er_nodup : nodupCh (eraseA cs ch) = true :=
              nodupCh_eraseA _ _ hndc
            have h_er_l : ∀ p ∈ eraseA cs ch,
                nodupE p.2 = true ∧ noDead p.2 = true := by
              intro p hp
              have hp1 := mem_eraseA _ _ _ hp
              exact ⟨(nodupEL_forall cs).mp hndl _ hp1,
                (noDeadL_forall cs).mp hdl _ hp1⟩
            have h1 : nodupEL (eraseA cs ch) = true :=
              (nodupEL_forall _).mpr fun p hp => (h_er_l p hp).1
            have h2 : noDeadL (eraseA cs ch) = true :=
              (noDeadL_forall _).mpr fun p hp => (h_er_l p hp).2
            have hval_or : val.isSome = true ∨ (eraseA cs ch).isEmpty = false := by
              cases hv : val with
              | some w => exact Or.inl rfl
              | none =>
                subst hv
                simp at hcond
                have hlen := eraseA_length_nodup cs ch child hndc hf
                right
                cases he : eraseA cs ch with
                | cons q l2 => rfl
                | nil =>
                  rw [he] at hlen
                  simp at hlen
                  omega
            simp [wfO, nodupE, noDead, h_er_nodup, h1, h2]
            rcases hval_or with hv | hv
            · exact Or.inl hv
            · right
              cases he : eraseA cs ch with
              | nil => rw [he] at hv; simp at hv
              | cons q l2 => simp [he]

/-! Heap lemmas: Put writes only above the pre-call heap boundary. -/

theorem putHGo_frame : ∀ (rest : List Char) (h : List NodeH) (a : Nat) (ch : Char)
    (v : TVal) (N : Nat), N ≤ a → N ≤ h.length → ∀ i, i < N →
    (putHGo h a ch rest v)[i]? = h[i]? := by
  intro rest
  induction rest with
  | nil =>
    intro h a ch v N hNa hNh i hiN
    have hne : a ≠ i := by omega
    have hlt : i < h.length := by omega
    simp only [putHGo]
    rw [List.getElem?_set_ne hne, List.getElem?_append_left hlt]
  | cons ch2 rest2 ih =>
    intro h a ch v N hNa hNh i hiN
    have hne : a ≠ i := by omega
    have hlt : i < h.length := by omega
    simp only [putHGo]
    rw [ih _ _ _ _ N hNh (by simp [List.length_set]; omega) i hiN,
      List.getElem?_set_ne hne, List.getElem?_append_left hlt]

theorem putH_frame (h : List NodeH) (root : Option Nat) (key : List Char)
    (v : TVal) (i : Nat) (hi : i < h.length) :
    (putH h root key v).1[i]? = h[i]? := by
  cases root with
  | none =>
    cases key with
    | nil =>
      simp only [putH]
      rw [List.getElem?_append_left hi]
    | cons ch rest =>
      simp only [putH]
      rw [putHGo_frame rest _ _ _ _ h.length (le_refl _) (by simp) i hi,
        List.getElem?_append_left hi]
  | some r =>
    cases key with
    | nil =>
      simp only [putH]
      rw [List.getElem?_append_left hi]
    | cons ch rest =>
      simp only [putH]
      rw [putHGo_frame rest _ _ _ _ h.length (le_refl _) (by simp) i hi,
        List.getElem?_append_left hi]

/-! Lookup from an old address is insensitive to changes past the old
heap boundary, as long as the old heap is closed. -/

theorem getHGo_agree : ∀ (key : List Char) (h h2 : List NodeH),
    closedHeap h = true → (∀ i, i < h.length → h2[i]? = h[i]?) →
    ∀ a, a < h.length → ∀ τ, getHGo h2 a key τ = getHGo h a key τ := by
  intro key
  induction key with
  | nil =>
    intro h h2 hc hagree a ha τ
    simp only [getHGo, hagree a ha]
  | cons ch rest ih =>
    intro h h2 hc hagree a ha τ
    have he := hagree a ha
    cases hnd : h[a]? with
    | none => simp only [getHGo, he, hnd]
    | some nd =>
      have hmem : nd ∈ h := List.getElem?_mem hnd
      cases hfc : findA nd.children ch with
      | none => simp only [getHGo, he, hnd, hfc]
      | some c =>
        have hcl : c < h.length := by
          have h1 := (List.all_eq_true.mp hc) nd hmem
          have h2m := (List.all_eq_true.mp h1) (ch, c) (findA_mem _ _ _ hfc)
          simpa using h2m
        simp only [getHGo, he, hnd, hfc]
        exact ih h h2 hc hagree c hcl τ

/-! Glue lemmas between Get and the lookup content. -/

theorem tagF_self (τ : TTag) (x : TDen τ) : tagF (some ⟨τ, x⟩) τ = some x := by
  simp [tagF]

theorem lookT_Put_self (t : Trie) (key : List Char) (v : TVal) :
    lookT (t.Put key v) key = some v := by
  obtain ⟨ro⟩ := t
  cases ro <;> cases key <;>
    simp [Trie.Put, lookT, lookV_nil, lookV_putLoop_self]

theorem lookT_Put_frame (t : Trie) (key : List Char) (v : TVal) (k2 : List Char)
    (hne : k2 ≠ key) : lookT (t.Put key v) k2 = lookT t k2 := by
  obtain ⟨ro⟩ := t
  cases ro with
  | none =>
    cases key with
    | nil =>
      cases k2 with
      | nil => exact absurd rfl hne
      | cons c r => simp [Trie.Put, lookT, lookV_cons, findA]
    | cons ch rest =>
      simp only [Trie.Put, lookT]
      rw [lookV_putLoop_frame rest _ ch v k2 hne, lookV_empty_node]
  | some r =>
    cases key with
    | nil =>
      cases k2 with
      | nil => exact absurd rfl hne
      | cons c r2 => simp [Trie.Put, lookT, lookV_cons]
    | cons ch rest =>
      simp only [Trie.Put, lookT]
      rw [lookV_putLoop_frame rest _ ch v k2 hne, TrieNode.eta]

/-! Claim theorems. -/

/-- Claim C1: for every trie (empty, or already mapping the key), every
key (including the empty key), every tag and every value, `Get` with the
same tag after `Put` returns exactly the stored value. -/
theorem trie_put_get_roundtrip (t : Trie) (key : List Char) (τ : TTag)
    (x : TDen τ) : (t.Put key ⟨τ, x⟩).Get key τ = some x := by
  rw [Get_eq_tagF, lookT_Put_self]
  exact tagF_self τ x

/-- Claim C2 (code bug): `Trie::Remove` never checks `root_` for null, so
on the empty trie it dereferences a null pointer for every key (the loop
body and the `is_value_node_` test both dereference the null node); the
modelled execution faults instead of returning the trie unchanged. -/
theorem trie_remove_empty_tree_faults (key : List Char) :
    Trie.Remove ⟨none⟩ key = none := rfl

/-- Claim C5: a `Put` on key `k` leaves the lookup result of every other
key `k2`, at every requested tag, exactly as it was in the old trie. -/
theorem trie_put_other_keys_unchanged (t : Trie) (k : List Char) (v : TVal)
    (k2 : List Char) (hne : k2 ≠ k) (τ : TTag) :
    (t.Put k v).Get k2 τ = t.Get k2 τ := by
  rw [Get_eq_tagF, Get_eq_tagF, lookT_Put_frame t k v k2 hne]

theorem trie_put_other_keys_unchanged_witness :
    ((['b'] : List Char) ≠ ['a']) ∧
    ((Trie.Put ⟨none⟩ ['a'] ⟨TTag.u32, (1 : Nat)⟩).Put ['b'] ⟨TTag.u32, (2 : Nat)⟩).Get
        ['a'] TTag.u32 =
      (Trie.Put ⟨none⟩ ['a'] ⟨TTag.u32, (1 : Nat)⟩).Get ['a'] TTag.u32 :=
  ⟨by decide,
    trie_put_other_keys_unchanged (Trie.Put ⟨none⟩ ['a'] ⟨TTag.u32, (1 : Nat)⟩)
      ['b'] ⟨TTag.u32, (2 : Nat)⟩ ['a'] (by decide) TTag.u32⟩

/-- Claim C6: when the value stored at a key carries tag `τ1` and the
lookup requests a different tag `τ2`, `Get` returns `none` (the
`dynamic_cast` fails), exactly as for a missing key. -/
theorem trie_get_type_mismatch (t : Trie) (key : List Char) (τ1 τ2 : TTag)
    (hst : t.storedTag key = some τ1) (hne : τ1 ≠ τ2) :
    t.Get key τ2 = none := by
  rw [Get_eq_tagF]
  obtain ⟨ro⟩ := t
  cases ro with
  | none => simp [Trie.storedTag] at hst
  | some r =>
    simp only [Trie.storedTag] at hst
    cases hl : lookV r key with
    | none => rw [hl] at hst; simp at hst
    | some w =>
      rw [hl] at hst
      simp at hst
      show tagF (lookV r key) τ2 = none
      rw [hl]
      simp [tagF, hst, hne]

theorem trie_get_type_mismatch_witness :
    ((Trie.Put ⟨none⟩ ['a'] ⟨TTag.u32, (5 : Nat)⟩).storedTag ['a'] = some TTag.u32) ∧
    (TTag.u32 ≠ TTag.str) ∧
    (Trie.Put ⟨none⟩ ['a'] ⟨TTag.u32, (5 : Nat)⟩).Get ['a'] TTag.str = none :=
  ⟨by decide, by decide,
    trie_get_type_mismatch (Trie.Put ⟨none⟩ ['a'] ⟨TTag.u32, (5 : Nat)⟩) ['a']
      TTag.u32 TTag.str (by decide) (by decide)⟩

/-- Claim C7: a `Put` with the empty key makes the new root a value node
that carries the new value and exactly the old root's children (none for
the empty trie); the value is readable back at the empty key and every
non-empty key looks up exactly as before. -/
theorem trie_put_empty_key (t : Trie) (v : TVal) (k2 : List Char) (τ : TTag)
    (hk2 : k2 ≠ []) :
    (t.Put [] v).root = some (TrieNode.mk t.rootChildren (some v)) ∧
    (t.Put [] v).Get [] v.fst = some v.snd ∧
    (t.Put [] v).Get k2 τ = t.Get k2 τ := by
  refine ⟨?_, ?_, ?_⟩
  · obtain ⟨ro⟩ := t
    cases ro <;> simp [Trie.Put, Trie.rootChildren]
  · rw [Get_eq_tagF, lookT_Put_self]
    obtain ⟨τ0, x0⟩ := v
    exact tagF_self τ0 x0
  · rw [Get_eq_tagF, Get_eq_tagF, lookT_Put_frame t [] v k2 hk2]

theorem trie_put_empty_key_witness :
    ((['a'] : List Char) ≠ []) ∧
    ((Trie.Put ⟨none⟩ ['a'] ⟨TTag.u32, (5 : Nat)⟩).Put [] ⟨TTag.u64, (9 : Nat)⟩).root =
        some (TrieNode.mk
          (Trie.Put ⟨none⟩ ['a'] ⟨TTag.u32, (5 : Nat)⟩).rootChildren
          (some ⟨TTag.u64, (9 : Nat)⟩)) ∧
    ((Trie.Put ⟨none⟩ ['a'] ⟨TTag.u32, (5 : Nat)⟩).Put [] ⟨TTag.u64, (9 : Nat)⟩).Get
        [] TTag.u64 = some (9 : Nat) ∧
    ((Trie.Put ⟨none⟩ ['a'] ⟨TTag.u32, (5 : Nat)⟩).Put [] ⟨TTag.u64, (9 : Nat)⟩).Get
        ['a'] TTag.u32 =
      (Trie.Put ⟨none⟩ ['a'] ⟨TTag.u32, (5 : Nat)⟩).Get ['a'] TTag.u32 :=
  ⟨by decide,
    trie_put_empty_key (Trie.Put ⟨none⟩ ['a'] ⟨TTag.u32, (5 : Nat)⟩)
      ⟨TTag.u64, (9 : Nat)⟩ ['a'] TTag.u32 (by decide)⟩

/-- Claim C8: `Get` walks one key character per edge and is absent when an
edge is missing at any step, when the key ends on a valueless node, and
always on the empty trie (any key, including the empty one). -/
theorem trie_get_traversal :
    (∀ (key : List Char) (τ : TTag), Trie.Get ⟨none⟩ key τ = none) ∧
    (∀ (n : TrieNode) (τ : TTag), n.value = none →
      Trie.Get ⟨some n⟩ [] τ = none) ∧
    (∀ (n : TrieNode) (ch : Char) (rest : List Char) (τ : TTag),
      findA n.children ch = none → Trie.Get ⟨some n⟩ (ch :: rest) τ = none) ∧
    (∀ (n : TrieNode) (ch : Char) (rest : List Char) (τ : TTag) (c : TrieNode),
      findA n.children ch = some c →
      Trie.Get ⟨some n⟩ (ch :: rest) τ = Trie.Get ⟨some c⟩ rest τ) := by
  refine ⟨fun key τ => rfl, fun n τ h => ?_, fun n ch rest τ h => ?_,
    fun n ch rest τ c h => ?_⟩
  · simp [Trie.Get, getNode, h]
  · simp [Trie.Get, getNode, h]
  · simp [Trie.Get, getNode, h]

theorem trie_get_traversal_witness :
    (Trie.Get ⟨none⟩ ['a'] TTag.u32 = none) ∧
    ((TrieNode.mk [] none).value = none ∧
      Trie.Get ⟨some (TrieNode.mk [] none)⟩ [] TTag.u32 = none) ∧
    (findA (TrieNode.mk [] none).children 'a' = none ∧
      Trie.Get ⟨some (TrieNode.mk [] none)⟩ ['a'] TTag.u32 = none) ∧
    (findA (TrieNode.mk [('a', TrieNode.mk [] (some ⟨TTag.u32, (3 : Nat)⟩))] none).children 'a' =
        some (TrieNode.mk [] (some ⟨TTag.u32, (3 : Nat)⟩)) ∧
      Trie.Get ⟨some (TrieNode.mk [('a', TrieNode.mk [] (some ⟨TTag.u32, (3 : Nat)⟩))] none)⟩
          ['a'] TTag.u32 =
        Trie.Get ⟨some (TrieNode.mk [] (some ⟨TTag.u32, (3 : Nat)⟩))⟩ [] TTag.u32) :=
  ⟨trie_get_traversal.1 ['a'] TTag.u32,
    ⟨rfl, trie_get_traversal.2.1 (TrieNode.mk [] none) TTag.u32 rfl⟩,
    ⟨rfl, trie_get_traversal.2.2.1 (TrieNode.mk [] none) 'a' [] TTag.u32 rfl⟩,
    ⟨rfl,
      trie_get_traversal.2.2.2
        (TrieNode.mk [('a', TrieNode.mk [] (some ⟨TTag.u32, (3 : Nat)⟩))] none)
        'a' [] TTag.u32 (TrieNode.mk [] (some ⟨TTag.u32, (3 : Nat)⟩)) rfl⟩⟩

/-- Claim C4: on a well-formed trie (distinct edge labels, no dead nodes)
that stores a value at `key`, `Remove` succeeds and leaves no reachable
node that has neither a value nor children; pruning may empty the trie. -/
theorem trie_remove_pruning (t : Trie) (key : List Char)
    (hnd : t.nodupT = true) (hdead : t.noDeadT = true)
    (hval : t.hasVal key = true) :
    ∃ t2, t.Remove key = some t2 ∧ t2.noDeadT = true := by
  obtain ⟨ro⟩ := t
  cases ro with
  | none => simp [Trie.hasVal] at hval
  | some r =>
    simp only [Trie.hasVal] at hval
    simp only [Trie.nodupT] at hnd
    simp only [Trie.noDeadT] at hdead
    have hsome := removeGo_isSome key r hval
    cases hrg : removeGo r key with
    | none => rw [hrg] at hsome; simp at hsome
    | some res =>
      refine ⟨⟨res⟩, ?_, ?_⟩
      · simp [Trie.Remove, hrg]
      · have hwf := removeGo_wf key r res hrg hnd hdead
        cases res with
        | none => rfl
        | some m =>
          simp [wfO] at hwf
          simp [Trie.noDeadT, hwf.2]

theorem trie_remove_pruning_witness :
    ((Trie.Put ⟨none⟩ ['a', 'b'] ⟨TTag.u32, (1 : Nat)⟩).nodupT = true) ∧
    ((Trie.Put ⟨none⟩ ['a', 'b'] ⟨TTag.u32, (1 : Nat)⟩).noDeadT = true) ∧
    ((Trie.Put ⟨none⟩ ['a', 'b'] ⟨TTag.u32, (1 : Nat)⟩).hasVal ['a', 'b'] = true) ∧
    (∃ t2, (Trie.Put ⟨none⟩ ['a', 'b'] ⟨TTag.u32, (1 : Nat)⟩).Remove ['a', 'b'] = some t2 ∧
      t2.noDeadT = true) :=
  ⟨by decide, by decide, by decide,
    trie_remove_pruning (Trie.Put ⟨none⟩ ['a', 'b'] ⟨TTag.u32, (1 : Nat)⟩)
      ['a', 'b'] (by decide) (by decide) (by decide)⟩

/-- Claim C10: removing a key that is present leaves the lookup result of
every other key (prefixes and extensions included), at every requested
tag, exactly as in the old trie. -/
theorem trie_remove_other_keys_unchanged (t : Trie) (key : List Char)
    (k2 : List Char) (τ : TTag) (hval : t.hasVal key = true)
    (hne : k2 ≠ key) :
    ∃ t2, t.Remove key = some t2 ∧ t2.Get k2 τ = t.Get k2 τ := by
  obtain ⟨ro⟩ := t
  cases ro with
  | none => simp [Trie.hasVal] at hval
  | some r =>
    simp only [Trie.hasVal] at hval
    have hsome := removeGo_isSome key r hval
    cases hrg : removeGo r key with
    | none => rw [hrg] at hsome; simp at hsome
    | some res =>
      refine ⟨⟨res⟩, by simp [Trie.Remove, hrg], ?_⟩
      rw [Get_eq_tagF, Get_eq_tagF]
      have hfr := removeGo_frame key r res hrg k2 hne
      have h1 : lookT ⟨res⟩ k2 = lookVO res k2 := by cases res <;> rfl
      rw [show lookT ⟨some r⟩ k2 = lookV r k2 from rfl, h1, hfr]

theorem trie_remove_other_keys_unchanged_witness :
    (((Trie.Put ⟨none⟩ ['c', 'a', 'r'] ⟨TTag.u32, (2 : Nat)⟩).Put
        ['c', 'a', 'r', 't'] ⟨TTag.u32, (3 : Nat)⟩).hasVal ['c', 'a', 'r'] = true) ∧
    ((['c', 'a', 'r', 't'] : List Char) ≠ ['c', 'a', 'r']) ∧
    (∃ t2, ((Trie.Put ⟨none⟩ ['c', 'a', 'r'] ⟨TTag.u32, (2 : Nat)⟩).Put
        ['c', 'a', 'r', 't'] ⟨TTag.u32, (3 : Nat)⟩).Remove ['c', 'a', 'r'] = some t2 ∧
      t2.Get ['c', 'a', 'r', 't'] TTag.u32 =
        ((Trie.Put ⟨none⟩ ['c', 'a', 'r'] ⟨TTag.u32, (2 : Nat)⟩).Put
          ['c', 'a', 'r', 't'] ⟨TTag.u32, (3 : Nat)⟩).Get ['c', 'a', 'r', 't'] TTag.u32) :=
  ⟨by decide, by decide,
    trie_remove_other_keys_unchanged
      ((Trie.Put ⟨none⟩ ['c', 'a', 'r'] ⟨TTag.u32, (2 : Nat)⟩).Put
        ['c', 'a', 'r', 't'] ⟨TTag.u32, (3 : Nat)⟩)
      ['c', 'a', 'r'] ['c', 'a', 'r', 't'] TTag.u32 (by decide) (by decide)⟩

/-- Claim C3: `Put` never mutates a node of the prior tree: on the heap
embedding, every address below the pre-call heap boundary keeps exactly
its record (edges and value), and a lookup from the old root, for every
key and tag, is unchanged in the new heap. -/
theorem trie_put_no_mutation (h : List NodeH) (root : Option Nat)
    (k : List Char) (v : TVal) (i : Nat) (k2 : List Char) (τ : TTag)
    (hc : closedHeap h = true) (hr : rootOkB root h.length = true)
    (hi : i < h.length) :
    (putH h root k v).1[i]? = h[i]? ∧
    getH (putH h root k v).1 root k2 τ = getH h root k2 τ := by
  refine ⟨putH_frame h root k v i hi, ?_⟩
  cases root with
  | none => rfl
  | some r =>
    simp only [rootOkB, decide_eq_true_eq] at hr
    simp only [getH]
    exact getHGo_agree k2 h (putH h (some r) k v).1 hc
      (fun j hj => putH_frame h (some r) k v j hj) r hr τ

theorem trie_put_no_mutation_witness :
    (closedHeap [NodeH.mk [] (some ⟨TTag.u32, (5 : Nat)⟩)] = true) ∧
    (rootOkB (some 0) [NodeH.mk [] (some ⟨TTag.u32, (5 : Nat)⟩)].length = true) ∧
    (0 < [NodeH.mk [] (some ⟨TTag.u32, (5 : Nat)⟩)].length) ∧
    ((putH [NodeH.mk [] (some ⟨TTag.u32, (5 : Nat)⟩)] (some 0) ['a']
        ⟨TTag.u32, (7 : Nat)⟩).1[0]? =
      [NodeH.mk [] (some ⟨TTag.u32, (5 : Nat)⟩)][0]? ∧
    getH (putH [NodeH.mk [] (some ⟨TTag.u32, (5 : Nat)⟩)] (some 0) ['a']
        ⟨TTag.u32, (7 : Nat)⟩).1 (some 0) [] TTag.u32 =
      getH [NodeH.mk [] (some ⟨TTag.u32, (5 : Nat)⟩)] (some 0) [] TTag.u32) :=
  ⟨by decide, by decide, by decide,
    trie_put_no_mutation [NodeH.mk [] (some ⟨TTag.u32, (5 : Nat)⟩)] (some 0)
      ['a'] ⟨TTag.u32, (7 : Nat)⟩ 0 [] TTag.u32 (by decide) (by decide) (by decide)⟩
